import Mathlib

/-!
Shallow embedding of the markdown-processing utilities of the pdf-summariser
repository (`src/utils.py`): title extraction, section extraction, content
chunking, markdown-to-block conversion and inline-span parsing.  Strings are
modelled as `List Char`; Python `str.strip`, `str.split`, `str.rfind`,
`str.startswith` and the concrete regular expressions used by the source are
modelled explicitly below.  All definitions are executable so that concrete
inputs evaluate by `decide` / `rfl`.
-/

namespace PdfSum

/-- Python whitespace characters recognised by `str.strip` / `\s` (ASCII part,
which is all the source's inputs use). -/
def isPyWs (c : Char) : Bool :=
  c = ' ' || c = '\t' || c = '\n' || c = '\r' || c = '\x0b' || c = '\x0c'

/-- Python `str.strip()`: drop leading and trailing whitespace. -/
def pyStrip (l : List Char) : List Char :=
  ((l.dropWhile isPyWs).reverse.dropWhile isPyWs).reverse

/-- Helper for `splitNl`: accumulate the current field (reversed). -/
def splitNlAux (cur : List Char) : List Char → List (List Char)
  | [] => [cur.reverse]
  | c :: t => if c = '\n' then cur.reverse :: splitNlAux [] t else splitNlAux (c :: cur) t

/-- Python `text.split('\n')`. -/
def splitNl (s : List Char) : List (List Char) := splitNlAux [] s

/-- Python `'\n'.join(ls)`. -/
def joinNl : List (List Char) → List Char
  | [] => []
  | [l] => l
  | l :: ls => l ++ '\n' :: joinNl ls

/-- Joining with single spaces, `' '.join(ls)` (used to state the chunker
round-trip property). -/
def joinSpace : List (List Char) → List Char
  | [] => []
  | [l] => l
  | l :: ls => l ++ ' ' :: joinSpace ls

/-- Helper for `words`: accumulate the current word (reversed). -/
def wordsAux (cur : List Char) : List Char → List (List Char)
  | [] => if cur = [] then [] else [cur.reverse]
  | c :: t =>
    if isPyWs c then
      (if cur = [] then wordsAux [] t else cur.reverse :: wordsAux [] t)
    else wordsAux (c :: cur) t

/-- The whitespace-delimited words of a string (Python `s.split()`): maximal
runs of non-whitespace characters, in order. -/
def words (s : List Char) : List (List Char) := wordsAux [] s

/-! ## Title extraction (`extract_title_from_markdown`) -/

/-- The effect of `re.sub(r'^#+\s*', '', line)` on the raw (unstripped) line:
if the line begins with at least one `#`, remove the leading run of `#`
characters and any whitespace that follows it; otherwise the line is
unchanged (the anchored pattern does not match). -/
def subHashPrefix (line : List Char) : List Char :=
  match line with
  | '#' :: rest => (rest.dropWhile (fun c => c = '#')).dropWhile isPyWs
  | _ => line

/-- The scanning loop of `extract_title_from_markdown`: return the processed
text of the first line whose stripped form starts with `#`. -/
def findTitle : List (List Char) → Option (List Char)
  | [] => none
  | l :: ls =>
    match pyStrip l with
    | '#' :: _ => some (pyStrip (subHashPrefix l))
    | _ => findTitle ls

/-- `extract_title_from_markdown` from `src/utils.py`. -/
def extract_title_from_markdown (text : List Char) : Option (List Char) :=
  findTitle (splitNl text)

/-! ## Section extraction (`extract_section`) -/

/-- Case-insensitive equality of character lists (the `re.IGNORECASE` flag,
ASCII lowering). -/
def caseEq (a b : List Char) : Bool :=
  a.map Char.toLower = b.map Char.toLower

/-- The anchored match `re.match(r'^#+\s*NAME\s*$', stripped, re.IGNORECASE)`
where `NAME` is the escaped (hence literal) section name: the stripped line
decomposes as one-or-more `#`, then whitespace, then the name
(case-insensitively), then trailing whitespace.  Matchability of such an
anchored pattern is exactly the existence of a decomposition, which is
enumerated over split positions. -/
def matchSecHeading (stripped name : List Char) : Bool :=
  (List.range (stripped.length + 1)).any (fun k =>
    decide (1 ≤ k) && (stripped.take k).all (fun c => c = '#') &&
      (let r1 := stripped.drop k
       (List.range (r1.length + 1)).any (fun j =>
         (r1.take j).all isPyWs &&
           (let r2 := r1.drop j
            caseEq (r2.take name.length) name && (r2.drop name.length).all isPyWs))))

/-- The scanning loop of `extract_section`: `inSec` is the `in_section` flag,
`acc` the collected content lines (reversed). -/
def secGo (name : List Char) (inSec : Bool) (acc : List (List Char)) :
    List (List Char) → List (List Char)
  | [] => acc.reverse
  | l :: ls =>
    let stripped := pyStrip l
    if matchSecHeading stripped name then secGo name true acc ls
    else if inSec && !stripped.isEmpty && stripped.take 1 = ['#'] then acc.reverse
    else if inSec && !stripped.isEmpty then secGo name inSec (l :: acc) ls
    else secGo name inSec acc ls

/-- `extract_section` from `src/utils.py`. -/
def extract_section (text name : List Char) : Option (List Char) :=
  let content := secGo name false [] (splitNl text)
  if content.isEmpty then none else some (pyStrip (joinNl content))

/-! ## Chunking (`chunk_content`) -/

/-- Index of the last occurrence of a space in `l` (Python
`content.rfind(' ', 0, n)` is `rfindSpace (l.take n)`, with `none` for `-1`). -/
def rfindSpace : List Char → Option Nat
  | [] => none
  | c :: t =>
    match rfindSpace t with
    | some i => some (i + 1)
    | none => if c = ' ' then some 0 else none

/-- The cut position chosen by one iteration of the `chunk_content` loop:
the last space strictly inside the first `M` characters if it sits at a
positive index, otherwise `M` itself (hard split). -/
def chunkEnd (content : List Char) (M : Nat) : Nat :=
  match rfindSpace (content.take M) with
  | some i => if 0 < i then i else M
  | none => M

/-- The `while` loop of `chunk_content`, with explicit fuel (the loop body
shortens the remaining content by at least one character whenever the
maximum size is positive, so `content.length + 1` fuel is always enough). -/
def chunkGo : Nat → List Char → Nat → List (List Char)
  | 0, _, _ => []
  | n + 1, content, M =>
    if content.length = 0 then []
    else if content.length ≤ M then [content]
    else
      pyStrip (content.take (chunkEnd content M)) ::
        chunkGo n (pyStrip (content.drop (chunkEnd content M))) M

/-- `chunk_content` from `src/utils.py`. -/
def chunk_content (content : List Char) (M : Nat) : List (List Char) :=
  chunkGo (content.length + 1) content M

/-! ## Inline-span parsing (`parse_inline_markdown`) -/

/-- The style flag a delimiter pattern attaches to its captured text. -/
inductive Style
  | bold
  | italic
  | strike
deriving DecidableEq

/-- One rich-text run: content plus an optional single style flag (the
`annotations` key of the wire object, absent for plain runs). -/
structure TextRun where
  content : List Char
  style : Option Style
deriving DecidableEq

/-- Scan for the lazily-minimal closing two-character delimiter `d d`:
given the text after the first (forced) inner character, find the first
position whose next two characters are both `d`; characters before it join
the captured group and must not be newlines (`.` does not match `'\n'`). -/
def close2Go (d : Char) (acc : List Char) : List Char → Option (List Char × List Char)
  | [] => none
  | e :: rest =>
    if e = d ∧ rest.take 1 = [d] then some (acc.reverse, rest.drop 1)
    else if e = '\n' then none
    else close2Go d (e :: acc) rest

/-- Matching of `(.+?)dd` against `t`: a non-empty, newline-free, lazily
minimal group followed by the doubled delimiter; returns the group and the
text after the closing delimiter. -/
def findClose2 (d : Char) (t : List Char) : Option (List Char × List Char) :=
  match t with
  | [] => none
  | c :: rest => if c = '\n' then none else close2Go d [c] rest

/-- Scan for the lazily-minimal closing single-character delimiter `d`. -/
def close1Go (d : Char) (acc : List Char) : List Char → Option (List Char × List Char)
  | [] => none
  | e :: rest =>
    if e = d then some (acc.reverse, rest)
    else if e = '\n' then none
    else close1Go d (e :: acc) rest

/-- Matching of `(.+?)d` against `t`. -/
def findClose1 (d : Char) (t : List Char) : Option (List Char × List Char) :=
  match t with
  | [] => none
  | c :: rest => if c = '\n' then none else close1Go d [c] rest

/-- Alternative 1, `\*\*(.+?)\*\*`, tried at the current position. -/
def tryBoldStar (s : List Char) : Option (Style × List Char × List Char) :=
  match s with
  | a :: b :: t =>
    if a = '*' ∧ b = '*' then (findClose2 '*' t).map (fun p => (Style.bold, p.1, p.2))
    else none
  | _ => none

/-- Alternative 2, `__(.+?)__`. -/
def tryBoldUnder (s : List Char) : Option (Style × List Char × List Char) :=
  match s with
  | a :: b :: t =>
    if a = '_' ∧ b = '_' then (findClose2 '_' t).map (fun p => (Style.bold, p.1, p.2))
    else none
  | _ => none

/-- Alternative 3, `~~(.+?)~~`. -/
def tryStrike (s : List Char) : Option (Style × List Char × List Char) :=
  match s with
  | a :: b :: t =>
    if a = '~' ∧ b = '~' then (findClose2 '~' t).map (fun p => (Style.strike, p.1, p.2))
    else none
  | _ => none

/-- Alternative 4, `_(.+?)_`. -/
def tryItalUnder (s : List Char) : Option (Style × List Char × List Char) :=
  match s with
  | a :: t =>
    if a = '_' then (findClose1 '_' t).map (fun p => (Style.italic, p.1, p.2))
    else none
  | _ => none

/-- Alternative 5, `\*(.+?)\*`. -/
def tryItalStar (s : List Char) : Option (Style × List Char × List Char) :=
  match s with
  | a :: t =>
    if a = '*' then (findClose1 '*' t).map (fun p => (Style.italic, p.1, p.2))
    else none
  | _ => none

/-- One attempt of the five-way alternation
`\*\*(.+?)\*\*|__(.+?)__|~~(.+?)~~|_(.+?)_|\*(.+?)\*` at the current
position, in the pattern's precedence order; on success returns the style,
the captured group and the text after the match. -/
def matchDelim (s : List Char) : Option (Style × List Char × List Char) :=
  match tryBoldStar s with
  | some m => some m
  | none =>
    match tryBoldUnder s with
    | some m => some m
    | none =>
      match tryStrike s with
      | some m => some m
      | none =>
        match tryItalUnder s with
        | some m => some m
        | none => tryItalStar s

/-- The `re.finditer` loop of `parse_inline_markdown`, with explicit fuel
(each step consumes at least one character, so `text.length + 1` is always
enough): `pending` holds (reversed) the plain characters since the end of
the previous match; at each position the alternation is tried, emitting the
pending gap as a plain run and the group as a styled run on success, and
otherwise the scan advances one character. -/
def scanGo : Nat → List Char → List Char → List TextRun
  | 0, _, _ => []
  | n + 1, pending, s =>
    match matchDelim s with
    | some (st, inner, rest) =>
      (if pending.isEmpty then [] else [⟨pending.reverse, none⟩]) ++
        ⟨inner, some st⟩ :: scanGo n [] rest
    | none =>
      match s with
      | [] => if pending.isEmpty then [] else [⟨pending.reverse, none⟩]
      | c :: t => scanGo n (c :: pending) t

/-- `parse_inline_markdown` from `src/utils.py`: the scan's runs, or the
whole text as a single plain run when the scan produced none. -/
def parse_inline_markdown (text : List Char) : List TextRun :=
  let rt := scanGo (text.length + 1) [] text
  if rt.isEmpty then [⟨text, none⟩] else rt

/-- Whether the five-way alternation matches anywhere in the text (the
condition under which `re.finditer` yields at least one match). -/
def hasDelimMatch : List Char → Bool
  | [] => false
  | c :: t => (matchDelim (c :: t)).isSome || hasDelimMatch t

/-! ## Block conversion (`markdown_to_notion_blocks`) -/

/-- A Notion block as built by `markdown_to_notion_blocks`; `code` carries
the joined content string and the (constant) language tag. -/
inductive Block
  | heading (level : Nat) (rich : List TextRun)
  | bullet (rich : List TextRun)
  | numbered (rich : List TextRun)
  | code (content : List Char) (language : List Char)
  | para (rich : List TextRun)
deriving DecidableEq

/-- Whether `re.match(r'^\d+\.\s', stripped)` succeeds: a non-empty run of
digits, a dot, then one whitespace character.  (Only the maximal digit run
can be followed by the dot, so no backtracking case is lost.) -/
def numMatch (stripped : List Char) : Bool :=
  let d := stripped.takeWhile Char.isDigit
  !d.isEmpty &&
    (match stripped.drop d.length with
     | '.' :: c :: _ => isPyWs c
     | _ => false)

/-- The effect of `re.sub(r'^\d+\.\s', '', stripped)` when `numMatch` holds:
drop the digit run, the dot and the single following whitespace char. -/
def numBody (stripped : List Char) : List Char :=
  stripped.drop ((stripped.takeWhile Char.isDigit).length + 2)

/-- The inner `while` of the code-fence branch: collect raw lines until a
line whose stripped form starts with three backticks (that line is consumed
and discarded) or the input ends; returns the collected lines and the
remaining lines. -/
def collectCode : List (List Char) → List (List Char) × List (List Char)
  | [] => ([], [])
  | l :: ls =>
    if ("```".toList).isPrefixOf (pyStrip l) then ([], ls)
    else
      let p := collectCode ls
      (l :: p.1, p.2)

/-- The line loop of `markdown_to_notion_blocks`, with explicit fuel (each
step consumes at least one line, so `lines.length + 1` is always enough). -/
def mdGo : Nat → List (List Char) → List Block
  | 0, _ => []
  | _ + 1, [] => []
  | n + 1, l :: ls =>
    let stripped := pyStrip l
    if stripped.isEmpty then mdGo n ls
    else if ("### ".toList).isPrefixOf stripped then
      Block.heading 3 [⟨pyStrip (stripped.drop 4), none⟩] :: mdGo n ls
    else if ("## ".toList).isPrefixOf stripped then
      Block.heading 2 [⟨pyStrip (stripped.drop 3), none⟩] :: mdGo n ls
    else if ("# ".toList).isPrefixOf stripped then
      Block.heading 1 [⟨pyStrip (stripped.drop 2), none⟩] :: mdGo n ls
    else if ("- ".toList).isPrefixOf stripped then
      Block.bullet [⟨pyStrip (stripped.drop 2), none⟩] :: mdGo n ls
    else if numMatch stripped then
      Block.numbered [⟨pyStrip (numBody stripped), none⟩] :: mdGo n ls
    else if ("```".toList).isPrefixOf stripped then
      Block.code (joinNl (collectCode ls).1) ("text".toList) :: mdGo n (collectCode ls).2
    else
      let rt := parse_inline_markdown stripped
      if rt.isEmpty then mdGo n ls else Block.para rt :: mdGo n ls

/-- The block parser on a list of lines (canonical fuel). -/
def mdBlocksLines (ls : List (List Char)) : List Block :=
  mdGo (ls.length + 1) ls

/-- `markdown_to_notion_blocks` from `src/utils.py`. -/
def markdown_to_notion_blocks (text : List Char) : List Block :=
  mdBlocksLines (splitNl text)

/-- No block-level rule (heading, bullet, numbered, fence) applies to this
stripped line. -/
def noBlockRule (stripped : List Char) : Bool :=
  !(("### ".toList).isPrefixOf stripped) &&
  !(("## ".toList).isPrefixOf stripped) &&
  !(("# ".toList).isPrefixOf stripped) &&
  !(("- ".toList).isPrefixOf stripped) &&
  !(numMatch stripped) &&
  !(("```".toList).isPrefixOf stripped)

/-- After `extract_section` has entered the named section: `true` when every
line until the terminating heading (a non-blank stripped line starting with
`#` that is not itself a matching section heading, which re-enters the
section) or the end of input is blank — i.e. no content line is collected. -/
def blankUntilBreak (name : List Char) : List (List Char) → Bool
  | [] => true
  | l :: ls =>
    let stripped := pyStrip l
    if matchSecHeading stripped name then blankUntilBreak name ls
    else if !stripped.isEmpty && stripped.take 1 = ['#'] then true
    else if !stripped.isEmpty then false
    else blankUntilBreak name ls

/-- The named section heading occurs, and the section it opens contains no
content line (every line up to the next terminating heading or end of input
is blank). -/
def presentBlank (name : List Char) : List (List Char) → Bool
  | [] => false
  | l :: ls =>
    if matchSecHeading (pyStrip l) name then blankUntilBreak name ls
    else presentBlank name ls

/-! ## Basic facts about the string helpers -/

theorem dropWhile_len_le (p : Char → Bool) : ∀ l : List Char, (l.dropWhile p).length ≤ l.length := by
  intro l
  induction l with
  | nil => simp [List.dropWhile]
  | cons c t ih =>
    by_cases h : p c
    · simp [List.dropWhile, h]
      omega
    · simp [List.dropWhile, h]

theorem mem_of_mem_dropWhile (p : Char → Bool) :
    ∀ l : List Char, ∀ a, a ∈ l.dropWhile p → a ∈ l := by
  intro l
  induction l with
  | nil => simp [List.dropWhile]
  | cons c t ih =>
    intro a ha
    by_cases h : p c
    · simp only [List.dropWhile, h] at ha
      exact List.mem_cons_of_mem c (ih a ha)
    · simp only [List.dropWhile, h] at ha
      simpa using ha

theorem pyStrip_length_le (l : List Char) : (pyStrip l).length ≤ l.length := by
  unfold pyStrip
  calc ((l.dropWhile isPyWs).reverse.dropWhile isPyWs).reverse.length
      = ((l.dropWhile isPyWs).reverse.dropWhile isPyWs).length := by
        simp
    _ ≤ (l.dropWhile isPyWs).reverse.length := dropWhile_len_le _ _
    _ = (l.dropWhile isPyWs).length := by simp
    _ ≤ l.length := dropWhile_len_le _ _

theorem mem_of_mem_pyStrip (l : List Char) (a : Char) (h : a ∈ pyStrip l) : a ∈ l := by
  unfold pyStrip at h
  rw [List.mem_reverse] at h
  have h2 := mem_of_mem_dropWhile _ _ _ h
  rw [List.mem_reverse] at h2
  exact mem_of_mem_dropWhile _ _ _ h2

theorem dropWhile_cons_head (p : Char → Bool) :
    ∀ l : List Char, ∀ c t, l.dropWhile p = c :: t → p c = false := by
  intro l
  induction l with
  | nil => intro c t h; simp [List.dropWhile] at h
  | cons a u ih =>
    intro c t h
    by_cases ha : p a
    · simp only [List.dropWhile, ha] at h
      exact ih c t h
    · simp only [List.dropWhile, ha] at h
      cases h
      simpa using ha

theorem takeWhile_all (p : Char → Bool) :
    ∀ l : List Char, (l.takeWhile p).all p = true := by
  intro l
  induction l with
  | nil => simp [List.takeWhile]
  | cons a u ih =>
    by_cases ha : p a
    · simp [List.takeWhile, ha, ih]
    · simp [List.takeWhile, ha]

theorem takeWhile_append_dropWhile_eq (p : Char → Bool) :
    ∀ l : List Char, l.takeWhile p ++ l.dropWhile p = l := by
  intro l
  induction l with
  | nil => simp [List.takeWhile, List.dropWhile]
  | cons a u ih =>
    by_cases ha : p a
    · simp [List.takeWhile, List.dropWhile, ha, ih]
    · simp [List.takeWhile, List.dropWhile, ha]

/-- The strip of a list decomposes the leading-whitespace-dropped list as the
strip followed by an all-whitespace tail. -/
theorem pyStrip_decomp (l : List Char) :
    ∃ T, l.dropWhile isPyWs = pyStrip l ++ T ∧ T.all isPyWs = true := by
  refine ⟨((l.dropWhile isPyWs).reverse.takeWhile isPyWs).reverse, ?_, ?_⟩
  · unfold pyStrip
    refine Eq.symm ?_
    rw [← List.reverse_append, takeWhile_append_dropWhile_eq, List.reverse_reverse]
  · have h := takeWhile_all isPyWs (l.dropWhile isPyWs).reverse
    simp only [List.all_eq_true] at h ⊢
    intro a ha
    exact h a (by simpa using ha)

/-- A non-empty stripped list starts with a non-whitespace character. -/
theorem pyStrip_head (l : List Char) (c : Char) (t : List Char)
    (h : pyStrip l = c :: t) : isPyWs c = false := by
  obtain ⟨T, hT, _⟩ := pyStrip_decomp l
  rw [h] at hT
  exact dropWhile_cons_head isPyWs l c (t ++ T) (by simpa using hT)

/-- Stripping is idempotent. -/
theorem pyStrip_idem (l : List Char) : pyStrip (pyStrip l) = pyStrip l := by
  cases h : pyStrip l with
  | nil => simp [pyStrip, List.dropWhile]
  | cons c t =>
    have hc : isPyWs c = false := pyStrip_head l c t h
    -- the strip has non-whitespace first and last characters, so stripping
    -- it again changes nothing
    have hlast : ∀ z : List Char,
        (∀ d u, z = d :: u → isPyWs d = false) →
        (∀ d u, z.reverse = d :: u → isPyWs d = false) →
        pyStrip z = z := by
      intro z h1 h2
      unfold pyStrip
      have e1 : z.dropWhile isPyWs = z := by
        cases z with
        | nil => simp [List.dropWhile]
        | cons d u => simp [List.dropWhile, h1 d u rfl]
      rw [e1]
      have e2 : z.reverse.dropWhile isPyWs = z.reverse := by
        cases hz : z.reverse with
        | nil => simp [hz, List.dropWhile]
        | cons d u => simp [List.dropWhile, h2 d u hz]
      rw [e2, List.reverse_reverse]
    rw [← h]
    refine hlast (pyStrip l) ?_ ?_
    · intro d u hdu
      exact pyStrip_head l d u hdu
    · intro d u hdu
      -- the last character of the strip is non-whitespace: the strip's
      -- reverse is the dropWhile of a reverse, so its head satisfies it
      have : (pyStrip l).reverse = ((l.dropWhile isPyWs).reverse.dropWhile isPyWs) := by
        unfold pyStrip
        simp
      rw [this] at hdu
      exact dropWhile_cons_head isPyWs _ d u hdu

/-! ## Fuel adequacy for the chunker loop -/

theorem rfindSpace_some_lt : ∀ l : List Char, ∀ i, rfindSpace l = some i → i < l.length := by
  intro l
  induction l with
  | nil => intro i h; simp [rfindSpace] at h
  | cons c t ih =>
    intro i h
    simp only [rfindSpace] at h
    cases ht : rfindSpace t with
    | some j =>
      rw [ht] at h
      cases h
      have := ih j ht
      simp only [List.length_cons]
      omega
    | none =>
      rw [ht] at h
      by_cases hc : c = ' '
      · simp [hc] at h
        cases h
        simp
      · simp [hc] at h

theorem chunkEnd_pos (content : List Char) (M : Nat) (hM : 1 ≤ M) :
    1 ≤ chunkEnd content M := by
  unfold chunkEnd
  cases h : rfindSpace (content.take M) with
  | none => exact hM
  | some i =>
    by_cases hi : 0 < i
    · simp only [hi, if_pos]
      omega
    · simp [hi]
      omega

theorem chunkEnd_le (content : List Char) (M : Nat) : chunkEnd content M ≤ M := by
  unfold chunkEnd
  cases h : rfindSpace (content.take M) with
  | none => exact Nat.le_refl M
  | some i =>
    by_cases hi : 0 < i
    · simp only [hi, if_pos]
      have h1 := rfindSpace_some_lt _ _ h
      have h2 : (content.take M).length ≤ M := by simp
      omega
    · simp [hi]

/-- One loop iteration on over-long content strictly shortens the remainder
(for a positive maximum size). -/
theorem chunk_step_len (content : List Char) (M : Nat) (hM : 1 ≤ M)
    (hlen : M < content.length) :
    (pyStrip (content.drop (chunkEnd content M))).length < content.length := by
  have h1 := pyStrip_length_le (content.drop (chunkEnd content M))
  have h2 : (content.drop (chunkEnd content M)).length
      = content.length - chunkEnd content M := by simp
  have h3 := chunkEnd_pos content M hM
  omega

/-- The chunker loop is fuel-insensitive once the fuel exceeds the content
length (positive maximum size). -/
theorem chunkGo_congr :
    ∀ L content M n m, (M : Nat) ≥ 1 → content.length ≤ L →
      content.length < n → content.length < m →
      chunkGo n content M = chunkGo m content M := by
  intro L
  induction L with
  | zero =>
    intro content M n m hM hL hn hm
    have hc : content = [] := List.eq_nil_of_length_eq_zero (Nat.le_zero.mp hL)
    subst hc
    cases n with
    | zero => omega
    | succ n =>
      cases m with
      | zero => omega
      | succ m => simp [chunkGo]
  | succ L ih =>
    intro content M n m hM hL hn hm
    cases n with
    | zero => omega
    | succ n =>
      cases m with
      | zero => omega
      | succ m =>
        simp only [chunkGo]
        by_cases h0 : content.length = 0
        · simp [h0]
        · simp only [h0, if_false]
          by_cases h1 : content.length ≤ M
          · simp [h1]
          · simp only [h1, if_false]
            have hlt : M < content.length := Nat.lt_of_not_le h1
            have hstep := chunk_step_len content M hM hlt
            have := ih (pyStrip (content.drop (chunkEnd content M))) M n m hM
              (by omega) (by omega) (by omega)
            rw [this]

/-! ## Fuel adequacy for the inline scanner -/

theorem close2Go_length (d : Char) :
    ∀ u acc inner rest, close2Go d acc u = some (inner, rest) →
      inner.length + 2 + rest.length = acc.length + u.length := by
  intro u
  induction u with
  | nil => intro acc inner rest h; simp [close2Go] at h
  | cons e t ih =>
    intro acc inner rest h
    simp only [close2Go] at h
    by_cases h1 : e = d ∧ t.take 1 = [d]
    · simp only [h1, if_pos] at h
      cases h
      have ht : 1 ≤ t.length := by
        cases t with
        | nil => simp at h1
        | cons x y => simp
      have : (t.drop 1).length = t.length - 1 := by simp
      simp [List.length_reverse, this]
      omega
    · simp only [h1, if_neg, if_false] at h
      by_cases h2 : e = '\n'
      · simp [h2] at h
      · simp only [h2, if_false] at h
        have := ih (e :: acc) inner rest h
        simp at this
        simp
        omega

theorem findClose2_length (d : Char) (t inner rest : List Char)
    (h : findClose2 d t = some (inner, rest)) :
    inner.length + 2 + rest.length = t.length := by
  unfold findClose2 at h
  cases t with
  | nil => simp at h
  | cons c u =>
    by_cases hc : c = '\n'
    · simp [hc] at h
    · simp only [hc, if_false] at h
      have := close2Go_length d u [c] inner rest h
      simp at this
      simp
      omega

theorem close1Go_length (d : Char) :
    ∀ u acc inner rest, close1Go d acc u = some (inner, rest) →
      inner.length + 1 + rest.length = acc.length + u.length := by
  intro u
  induction u with
  | nil => intro acc inner rest h; simp [close1Go] at h
  | cons e t ih =>
    intro acc inner rest h
    simp only [close1Go] at h
    by_cases h1 : e = d
    · simp only [h1, if_pos] at h
      cases h
      simp [List.length_reverse]
      omega
    · simp only [h1, if_neg, if_false] at h
      by_cases h2 : e = '\n'
      · simp [h2] at h
      · simp only [h2, if_false] at h
        have := ih (e :: acc) inner rest h
        simp at this
        simp
        omega

theorem findClose1_length (d : Char) (t inner rest : List Char)
    (h : findClose1 d t = some (inner, rest)) :
    inner.length + 1 + rest.length = t.length := by
  unfold findClose1 at h
  cases t with
  | nil => simp at h
  | cons c u =>
    by_cases hc : c = '\n'
    · simp [hc] at h
    · simp only [hc, if_false] at h
      have := close1Go_length d u [c] inner rest h
      simp at this
      simp
      omega

theorem matchDelim_nil : matchDelim [] = none := rfl

theorem tryBoldStar_rest_lt (s : List Char) (r : Style × List Char × List Char)
    (h : tryBoldStar s = some r) : r.2.2.length < s.length := by
  cases s with
  | nil => simp [tryBoldStar] at h
  | cons a s1 =>
    cases s1 with
    | nil => simp [tryBoldStar] at h
    | cons b t =>
      simp only [tryBoldStar] at h
      by_cases hab : a = '*' ∧ b = '*'
      · rw [if_pos hab] at h
        cases hf : findClose2 '*' t with
        | none => rw [hf] at h; simp at h
        | some p =>
          rw [hf] at h
          simp only [Option.map_some', Option.some.injEq] at h
          have hl := findClose2_length '*' t p.1 p.2 (by rw [hf])
          rw [← h]
          simp
          omega
      · simp [hab] at h

theorem tryBoldUnder_rest_lt (s : List Char) (r : Style × List Char × List Char)
    (h : tryBoldUnder s = some r) : r.2.2.length < s.length := by
  cases s with
  | nil => simp [tryBoldUnder] at h
  | cons a s1 =>
    cases s1 with
    | nil => simp [tryBoldUnder] at h
    | cons b t =>
      simp only [tryBoldUnder] at h
      by_cases hab : a = '_' ∧ b = '_'
      · rw [if_pos hab] at h
        cases hf : findClose2 '_' t with
        | none => rw [hf] at h; simp at h
        | some p =>
          rw [hf] at h
          simp only [Option.map_some', Option.some.injEq] at h
          have hl := findClose2_length '_' t p.1 p.2 (by rw [hf])
          rw [← h]
          simp
          omega
      · simp [hab] at h

theorem tryStrike_rest_lt (s : List Char) (r : Style × List Char × List Char)
    (h : tryStrike s = some r) : r.2.2.length < s.length := by
  cases s with
  | nil => simp [tryStrike] at h
  | cons a s1 =>
    cases s1 with
    | nil => simp [tryStrike] at h
    | cons b t =>
      simp only [tryStrike] at h
      by_cases hab : a = '~' ∧ b = '~'
      · rw [if_pos hab] at h
        cases hf : findClose2 '~' t with
        | none => rw [hf] at h; simp at h
        | some p =>
          rw [hf] at h
          simp only [Option.map_some', Option.some.injEq] at h
          have hl := findClose2_length '~' t p.1 p.2 (by rw [hf])
          rw [← h]
          simp
          omega
      · simp [hab] at h

theorem tryItalUnder_rest_lt (s : List Char) (r : Style × List Char × List Char)
    (h : tryItalUnder s = some r) : r.2.2.length < s.length := by
  cases s with
  | nil => simp [tryItalUnder] at h
  | cons a t =>
    simp only [tryItalUnder] at h
    by_cases ha : a = '_'
    · rw [if_pos ha] at h
      cases hf : findClose1 '_' t with
      | none => rw [hf] at h; simp at h
      | some p =>
        rw [hf] at h
        simp only [Option.map_some', Option.some.injEq] at h
        have hl := findClose1_length '_' t p.1 p.2 (by rw [hf])
        rw [← h]
        simp
        omega
    · simp [ha] at h

theorem tryItalStar_rest_lt (s : List Char) (r : Style × List Char × List Char)
    (h : tryItalStar s = some r) : r.2.2.length < s.length := by
  cases s with
  | nil => simp [tryItalStar] at h
  | cons a t =>
    simp only [tryItalStar] at h
    by_cases ha : a = '*'
    · rw [if_pos ha] at h
      cases hf : findClose1 '*' t with
      | none => rw [hf] at h; simp at h
      | some p =>
        rw [hf] at h
        simp only [Option.map_some', Option.some.injEq] at h
        have hl := findClose1_length '*' t p.1 p.2 (by rw [hf])
        rw [← h]
        simp
        omega
    · simp [ha] at h

theorem matchDelim_rest_lt (s : List Char) (r : Style × List Char × List Char)
    (h : matchDelim s = some r) : r.2.2.length < s.length := by
  unfold matchDelim at h
  cases h1 : tryBoldStar s with
  | some m => rw [h1] at h; cases h; exact tryBoldStar_rest_lt s _ h1
  | none =>
    rw [h1] at h
    cases h2 : tryBoldUnder s with
    | some m => rw [h2] at h; cases h; exact tryBoldUnder_rest_lt s _ h2
    | none =>
      rw [h2] at h
      cases h3 : tryStrike s with
      | some m => rw [h3] at h; cases h; exact tryStrike_rest_lt s _ h3
      | none =>
        rw [h3] at h
        cases h4 : tryItalUnder s with
        | some m => rw [h4] at h; cases h; exact tryItalUnder_rest_lt s _ h4
        | none =>
          rw [h4] at h
          exact tryItalStar_rest_lt s _ h

/-- The inline scan is fuel-insensitive once the fuel exceeds the remaining
text length. -/
theorem scanGo_congr :
    ∀ L s pending n m, s.length ≤ L → s.length < n → s.length < m →
      scanGo n pending s = scanGo m pending s := by
  intro L
  induction L with
  | zero =>
    intro s pending n m hL hn hm
    have hs : s = [] := List.eq_nil_of_length_eq_zero (Nat.le_zero.mp hL)
    subst hs
    cases n with
    | zero => omega
    | succ n =>
      cases m with
      | zero => omega
      | succ m => simp [scanGo, matchDelim_nil]
  | succ L ih =>
    intro s pending n m hL hn hm
    cases n with
    | zero => omega
    | succ n =>
      cases m with
      | zero => omega
      | succ m =>
        simp only [scanGo]
        cases hd : matchDelim s with
        | some r =>
          have hr := matchDelim_rest_lt s r hd
          obtain ⟨st, inner, rest⟩ := r
          simp only at hr
          dsimp only
          rw [ih rest [] n m (by omega) (by omega) (by omega)]
        | none =>
          cases s with
          | nil => rfl
          | cons c t =>
            exact ih t (c :: pending) n m (by simpa using hL) (by simpa using hn)
              (by simpa using hm)

/-! ## Fuel adequacy for the block-parser loop -/

theorem collectCode_snd_le : ∀ ls : List (List Char), (collectCode ls).2.length ≤ ls.length := by
  intro ls
  induction ls with
  | nil => simp [collectCode]
  | cons l t ih =>
    simp only [collectCode]
    by_cases h : ("```".toList).isPrefixOf (pyStrip l)
    · rw [if_pos h]
      simp
    · rw [if_neg h]
      simp only [List.length_cons]
      omega

/-- The block-parser loop is fuel-insensitive once the fuel exceeds the
number of remaining lines. -/
theorem mdGo_congr :
    ∀ L ls n m, (ls : List (List Char)).length ≤ L → ls.length < n → ls.length < m →
      mdGo n ls = mdGo m ls := by
  intro L
  induction L with
  | zero =>
    intro ls n m hL hn hm
    have hs : ls = [] := List.eq_nil_of_length_eq_zero (Nat.le_zero.mp hL)
    subst hs
    cases n with
    | zero => omega
    | succ n =>
      cases m with
      | zero => omega
      | succ m => simp [mdGo]
  | succ L ih =>
    intro ls n m hL hn hm
    cases ls with
    | nil =>
      cases n with
      | zero => omega
      | succ n =>
        cases m with
        | zero => omega
        | succ m => simp [mdGo]
    | cons l t =>
      cases n with
      | zero => omega
      | succ n =>
        cases m with
        | zero => omega
        | succ m =>
          have ht : t.length ≤ L := by simpa using hL
          have htn : t.length < n := by simpa using hn
          have htm : t.length < m := by simpa using hm
          have hrec := ih t n m ht htn htm
          have hcode := ih (collectCode t).2 n m
            (le_trans (collectCode_snd_le t) ht)
            (lt_of_le_of_lt (collectCode_snd_le t) htn)
            (lt_of_le_of_lt (collectCode_snd_le t) htm)
          simp only [mdGo]
          rw [hrec, hcode]

/-! ## Facts about the inline parser -/

theorem parse_inline_ne_nil (text : List Char) : parse_inline_markdown text ≠ [] := by
  cases hrt : scanGo (text.length + 1) [] text with
  | nil => simp [parse_inline_markdown, hrt]
  | cons a t => simp [parse_inline_markdown, hrt]

theorem parse_inline_isEmpty (text : List Char) :
    (parse_inline_markdown text).isEmpty = false := by
  have := parse_inline_ne_nil text
  cases h : parse_inline_markdown text with
  | nil => exact absurd h this
  | cons a t => simp

/-- When the alternation matches nowhere in the text, the scan returns the
whole text (behind any pending characters) as one plain run. -/
theorem scanGo_noMatch :
    ∀ s n pending, s.length < n → hasDelimMatch s = false →
      scanGo n pending s =
        if pending.isEmpty && s.isEmpty then []
        else [⟨pending.reverse ++ s, none⟩] := by
  intro s
  induction s with
  | nil =>
    intro n pending hn _
    cases n with
    | zero => omega
    | succ n =>
      simp only [scanGo, matchDelim_nil]
      by_cases hp : pending.isEmpty
      · simp [hp]
      · simp [hp]
  | cons c t ih =>
    intro n pending hn h
    have hmd : matchDelim (c :: t) = none := by
      simp only [hasDelimMatch, Bool.or_eq_false_iff] at h
      cases hd : matchDelim (c :: t) with
      | none => rfl
      | some r => rw [hd] at h; simp at h
    have ht : hasDelimMatch t = false := by
      simp only [hasDelimMatch, Bool.or_eq_false_iff] at h
      exact h.2
    cases n with
    | zero => omega
    | succ n =>
      simp only [scanGo, hmd]
      rw [ih n (c :: pending) (by simpa using hn) ht]
      simp

/-! ## Step equations of the block parser -/

theorem mdBlocks_blank (l : List Char) (ls : List (List Char)) (h : pyStrip l = []) :
    mdBlocksLines (l :: ls) = mdBlocksLines ls := by
  unfold mdBlocksLines
  show mdGo (ls.length + 1 + 1) (l :: ls) = _
  simp only [mdGo, h]
  simp

theorem mdBlocks_h3 (l : List Char) (ls : List (List Char)) (t : List Char)
    (h : pyStrip l = '#' :: '#' :: '#' :: ' ' :: t) :
    mdBlocksLines (l :: ls) = Block.heading 3 [⟨pyStrip t, none⟩] :: mdBlocksLines ls := by
  unfold mdBlocksLines
  show mdGo (ls.length + 1 + 1) (l :: ls) = _
  simp only [mdGo, h]
  simp [List.isPrefixOf]

theorem mdBlocks_h2 (l : List Char) (ls : List (List Char)) (t : List Char)
    (h : pyStrip l = '#' :: '#' :: ' ' :: t) :
    mdBlocksLines (l :: ls) = Block.heading 2 [⟨pyStrip t, none⟩] :: mdBlocksLines ls := by
  unfold mdBlocksLines
  show mdGo (ls.length + 1 + 1) (l :: ls) = _
  simp only [mdGo, h]
  simp [List.isPrefixOf]

theorem mdBlocks_h1 (l : List Char) (ls : List (List Char)) (t : List Char)
    (h : pyStrip l = '#' :: ' ' :: t) :
    mdBlocksLines (l :: ls) = Block.heading 1 [⟨pyStrip t, none⟩] :: mdBlocksLines ls := by
  unfold mdBlocksLines
  show mdGo (ls.length + 1 + 1) (l :: ls) = _
  simp only [mdGo, h]
  simp [List.isPrefixOf]

theorem mdBlocks_bullet (l : List Char) (ls : List (List Char)) (t : List Char)
    (h : pyStrip l = '-' :: ' ' :: t) :
    mdBlocksLines (l :: ls) = Block.bullet [⟨pyStrip t, none⟩] :: mdBlocksLines ls := by
  unfold mdBlocksLines
  show mdGo (ls.length + 1 + 1) (l :: ls) = _
  simp only [mdGo, h]
  simp [List.isPrefixOf, numMatch]

theorem mdBlocks_numbered (l : List Char) (ls : List (List Char))
    (h : numMatch (pyStrip l) = true) :
    mdBlocksLines (l :: ls) =
      Block.numbered [⟨pyStrip (numBody (pyStrip l)), none⟩] :: mdBlocksLines ls := by
  unfold mdBlocksLines
  show mdGo (ls.length + 1 + 1) (l :: ls) = _
  cases hp : pyStrip l with
  | nil => rw [hp] at h; simp [numMatch, List.takeWhile] at h
  | cons c t =>
    rw [hp] at h
    have hd : c.isDigit = true := by
      by_contra hc
      simp only [Bool.not_eq_true] at hc
      simp [numMatch, List.takeWhile, hc] at h
    have e1 : (('#' : Char) == c) = false := by
      rw [beq_eq_false_iff_ne]
      intro hc
      rw [← hc] at hd
      simp [Char.isDigit] at hd
    have e2 : (('-' : Char) == c) = false := by
      rw [beq_eq_false_iff_ne]
      intro hc
      rw [← hc] at hd
      simp [Char.isDigit] at hd
    simp only [mdGo, hp]
    simp [List.isPrefixOf, e1, e2, h]

theorem mdBlocks_fence (l : List Char) (ls : List (List Char))
    (h : ("```".toList).isPrefixOf (pyStrip l) = true) :
    mdBlocksLines (l :: ls) =
      Block.code (joinNl (collectCode ls).1) ("text".toList) ::
        mdBlocksLines (collectCode ls).2 := by
  unfold mdBlocksLines
  show mdGo (ls.length + 1 + 1) (l :: ls) = _
  obtain ⟨u, hu⟩ : ∃ u, pyStrip l = '`' :: '`' :: '`' :: u := by
    obtain ⟨u, hu⟩ := List.isPrefixOf_iff_prefix.mp h
    exact ⟨u, hu.symm⟩
  have e1 : (('#' : Char) == '`') = false := by decide
  have e2 : (('-' : Char) == '`') = false := by decide
  have hnum : numMatch ('`' :: '`' :: '`' :: u) = false := by
    simp [numMatch, List.takeWhile]
  simp only [mdGo, hu]
  simp [List.isPrefixOf, e1, e2, hnum]
  exact (mdGo_congr (collectCode ls).2.length (collectCode ls).2
    ((collectCode ls).2.length + 1) (ls.length + 1) (le_refl _) (by omega)
    (by have := collectCode_snd_le ls; omega)).symm

theorem mdBlocks_para (l : List Char) (ls : List (List Char))
    (hne : pyStrip l ≠ []) (h : noBlockRule (pyStrip l) = true) :
    mdBlocksLines (l :: ls) =
      Block.para (parse_inline_markdown (pyStrip l)) :: mdBlocksLines ls := by
  unfold mdBlocksLines
  show mdGo (ls.length + 1 + 1) (l :: ls) = _
  simp only [noBlockRule, Bool.and_eq_true, Bool.not_eq_true'] at h
  obtain ⟨⟨⟨⟨⟨h1, h2⟩, h3⟩, h4⟩, h5⟩, h6⟩ := h
  have hie : (pyStrip l).isEmpty = false := by
    cases hp : pyStrip l with
    | nil => exact absurd hp hne
    | cons a t => simp
  simp only [mdGo, hie, h1, h2, h3, h4, h5, h6, parse_inline_isEmpty]
  simp [parse_inline_isEmpty]

/-! ## The claims -/

/-- C2 (code_bug evaluation): on the document consisting of the single
indented heading line `"  # Title"`, `extract_title_from_markdown` returns
`"# Title"` — the leading `#` is NOT stripped, because the
hash-stripping substitution is anchored to the unstripped line — although
the function's own contract (and the spec) promise the title without `#`
symbols. -/
theorem claim_C2_indented_title_bug :
    extract_title_from_markdown ("  # Title".toList) = some ("# Title".toList) := by
  decide

/-- C7: for every positive maximum size `M` and content longer than `M`,
one iteration of the `chunk_content` loop (cut at `chunkEnd`, strip the
remainder) strictly decreases the length of the remaining content, so the
loop terminates. -/
theorem claim_C7_chunk_terminates (content : List Char) (M : Nat)
    (hM : 1 ≤ M) (hlen : M < content.length) :
    (pyStrip (content.drop (chunkEnd content M))).length < content.length :=
  chunk_step_len content M hM hlen

theorem claim_C7_chunk_terminates_witness :
    1 ≤ 2 ∧ 2 < ("abcde".toList).length ∧
      (pyStrip (("abcde".toList).drop (chunkEnd ("abcde".toList) 2))).length <
        ("abcde".toList).length :=
  ⟨by decide, by decide,
    claim_C7_chunk_terminates ("abcde".toList) 2 (by decide) (by decide)⟩

/-- C8: if none of the five delimiter patterns matches anywhere in the
line, the inline parser returns exactly one plain run carrying the whole
input; and for every input (including the empty string) the result is
never the empty sequence. -/
theorem claim_C8_plain_fallback (text : List Char) :
    (hasDelimMatch text = false → parse_inline_markdown text = [⟨text, none⟩]) ∧
    parse_inline_markdown text ≠ [] := by
  constructor
  · intro h
    unfold parse_inline_markdown
    rw [scanGo_noMatch text (text.length + 1) [] (by omega) h]
    cases text with
    | nil => simp
    | cons c t => simp
  · exact parse_inline_ne_nil text

theorem claim_C8_plain_fallback_witness :
    parse_inline_markdown ("hello".toList) = [⟨"hello".toList, none⟩] :=
  (claim_C8_plain_fallback ("hello".toList)).1 (by decide)

/-- C1 (counterexample): the bullet line `"- **x**"` does NOT produce a
bullet item whose runs are the inline-parse of the remainder `"**x**"`
(which would be a single bold run): the code emits a single plain run with
the delimiters kept as literal text. -/
theorem claim_C1_counterexample :
    markdown_to_notion_blocks ("- **x**".toList) ≠
      [Block.bullet (parse_inline_markdown ("**x**".toList))] := by
  decide

/-- C1 (amended): a line whose trimmed form starts with `- ` produces a
BulletItem, and a line matching `<digits>.<whitespace>` a NumberedItem,
whose runs are a SINGLE PLAIN run holding the marker-stripped trimmed
remainder; the inline-span parser is not applied to list items, so inline
markers such as `**x**` remain literal text. -/
theorem claim_C1_list_items_plain :
    (∀ l ls t, pyStrip l = '-' :: ' ' :: t →
      mdBlocksLines (l :: ls) = Block.bullet [⟨pyStrip t, none⟩] :: mdBlocksLines ls) ∧
    (∀ l ls, numMatch (pyStrip l) = true →
      mdBlocksLines (l :: ls) =
        Block.numbered [⟨pyStrip (numBody (pyStrip l)), none⟩] :: mdBlocksLines ls) :=
  ⟨mdBlocks_bullet, mdBlocks_numbered⟩

theorem claim_C1_list_items_plain_witness :
    mdBlocksLines ["- **item**".toList] =
      Block.bullet [⟨pyStrip ("**item**".toList), none⟩] :: mdBlocksLines [] :=
  claim_C1_list_items_plain.1 ("- **item**".toList) [] ("**item**".toList) (by decide)

/-- C5: a trimmed line starting `### ` / `## ` / `# ` (checked in that
order) yields a Heading of level 3 / 2 / 1 whose text is the trimmed
remainder after the marker, carried as a single plain run (no inline
parsing); and the line `"#Title"` without a space after the hash yields a
Paragraph, not a Heading. -/
theorem claim_C5_headings :
    (∀ l ls t, pyStrip l = '#' :: '#' :: '#' :: ' ' :: t →
      mdBlocksLines (l :: ls) = Block.heading 3 [⟨pyStrip t, none⟩] :: mdBlocksLines ls) ∧
    (∀ l ls t, pyStrip l = '#' :: '#' :: ' ' :: t →
      mdBlocksLines (l :: ls) = Block.heading 2 [⟨pyStrip t, none⟩] :: mdBlocksLines ls) ∧
    (∀ l ls t, pyStrip l = '#' :: ' ' :: t →
      mdBlocksLines (l :: ls) = Block.heading 1 [⟨pyStrip t, none⟩] :: mdBlocksLines ls) ∧
    mdBlocksLines ["#Title".toList] = [Block.para [⟨"#Title".toList, none⟩]] :=
  ⟨mdBlocks_h3, mdBlocks_h2, mdBlocks_h1, by decide⟩

theorem claim_C5_headings_witness :
    mdBlocksLines ["### Title".toList] =
      Block.heading 3 [⟨pyStrip ("Title".toList), none⟩] :: mdBlocksLines [] :=
  claim_C5_headings.1 ("### Title".toList) [] ("Title".toList) (by decide)

/-- C9: the block parser is total by construction (it is a function into
block lists); a line that is blank after trimming produces no block, and
every non-blank line matching none of the heading, list or fence rules
produces a Paragraph block (the inline parser never returns an empty run
list, so the paragraph is never dropped). -/
theorem claim_C9_degrades_to_paragraph :
    (∀ l ls, pyStrip l = [] → mdBlocksLines (l :: ls) = mdBlocksLines ls) ∧
    (∀ l ls, pyStrip l ≠ [] → noBlockRule (pyStrip l) = true →
      mdBlocksLines (l :: ls) =
        Block.para (parse_inline_markdown (pyStrip l)) :: mdBlocksLines ls) :=
  ⟨mdBlocks_blank, mdBlocks_para⟩

theorem claim_C9_degrades_to_paragraph_witness :
    mdBlocksLines ["just text".toList] =
      Block.para (parse_inline_markdown (pyStrip ("just text".toList))) :: mdBlocksLines [] :=
  claim_C9_degrades_to_paragraph.2 ("just text".toList) [] (by decide) (by decide)

/-! ## C4: code fences -/

theorem collectCode_eq : ∀ ls : List (List Char),
    collectCode ls =
      (ls.takeWhile (fun x => !(("```".toList).isPrefixOf (pyStrip x))),
       ls.drop ((ls.takeWhile (fun x => !(("```".toList).isPrefixOf (pyStrip x)))).length + 1)) := by
  intro ls
  induction ls with
  | nil => simp [collectCode]
  | cons l t ih =>
    by_cases h : ("```".toList).isPrefixOf (pyStrip l)
    · have h' := List.isPrefixOf_iff_prefix.mp h
      have htw : (l :: t).takeWhile (fun x => !(("```".toList).isPrefixOf (pyStrip x))) = [] := by
        rw [List.takeWhile_cons]
        simp
        simpa using h'
      simp only [collectCode, if_pos h, htw]
      simp
    · have htw : (l :: t).takeWhile (fun x => !(("```".toList).isPrefixOf (pyStrip x))) =
          l :: t.takeWhile (fun x => !(("```".toList).isPrefixOf (pyStrip x))) := by
        rw [List.takeWhile_cons]
        simp
        intro hp
        exact h (List.isPrefixOf_iff_prefix.mpr (by simpa using hp))
      simp only [collectCode, if_neg h, htw, ih]
      simp [List.drop_succ_cons]

/-- C4: a line whose trimmed form opens a code fence produces exactly one
CodeBlock whose content is the verbatim (unstripped) join of all following
lines up to but excluding the next line whose trimmed form starts with
three backticks; that closing line is consumed and discarded, and when no
closing fence exists the block absorbs all remaining lines. -/
theorem claim_C4_code_fence (l : List Char) (ls : List (List Char))
    (h : ("```".toList).isPrefixOf (pyStrip l) = true) :
    mdBlocksLines (l :: ls) =
      Block.code
        (joinNl (ls.takeWhile (fun x => !(("```".toList).isPrefixOf (pyStrip x)))))
        ("text".toList) ::
      mdBlocksLines
        (ls.drop
          ((ls.takeWhile (fun x => !(("```".toList).isPrefixOf (pyStrip x)))).length + 1)) := by
  have := mdBlocks_fence l ls h
  rw [collectCode_eq ls] at this
  exact this

theorem claim_C4_code_fence_witness :
    mdBlocksLines ["```".toList, "x 1".toList, "```".toList, "after".toList] =
      Block.code
        (joinNl (["x 1".toList, "```".toList, "after".toList].takeWhile
          (fun x => !(("```".toList).isPrefixOf (pyStrip x)))))
        ("text".toList) ::
      mdBlocksLines
        (["x 1".toList, "```".toList, "after".toList].drop
          ((["x 1".toList, "```".toList, "after".toList].takeWhile
            (fun x => !(("```".toList).isPrefixOf (pyStrip x)))).length + 1)) :=
  claim_C4_code_fence ("```".toList) ["x 1".toList, "```".toList, "after".toList] (by decide)

/-! ## C10: extract_section returns the absence value for empty sections -/

theorem secGo_noMatch (name : List Char) :
    ∀ ls acc, (∀ l ∈ ls, matchSecHeading (pyStrip l) name = false) →
      secGo name false acc ls = acc.reverse := by
  intro ls
  induction ls with
  | nil => intro acc _; rfl
  | cons l t ih =>
    intro acc h
    have hl : matchSecHeading (pyStrip l) name = false := h l (by simp)
    simp only [secGo, hl]
    simp only [Bool.false_and, if_false]
    exact ih acc (fun x hx => h x (by simp [hx]))

theorem secGo_blankUntil (name : List Char) :
    ∀ ls, blankUntilBreak name ls = true → secGo name true [] ls = [] := by
  intro ls
  induction ls with
  | nil => intro _; rfl
  | cons l t ih =>
    intro h
    by_cases hm : matchSecHeading (pyStrip l) name
    · simp only [blankUntilBreak, hm, if_pos] at h
      simp only [secGo, hm]
      simp only [if_pos]
      exact ih h
    · have hm' : matchSecHeading (pyStrip l) name = false := by
        simpa using hm
      simp only [blankUntilBreak, hm', Bool.false_eq_true, if_false] at h
      by_cases he : (pyStrip l).isEmpty
      · have he1 : (!(pyStrip l).isEmpty) = false := by simp [he]
        simp only [he1, Bool.and_false, Bool.false_and, Bool.and_eq_true] at h
        simp only [secGo, hm', Bool.false_eq_true, if_false, he1, Bool.and_false,
          Bool.false_and, Bool.true_and]
        exact ih h
      · have he1 : (!(pyStrip l).isEmpty) = true := by simp [he]
        by_cases hh : (pyStrip l).take 1 = ['#']
        · simp only [secGo, hm', Bool.false_eq_true, if_false, he1, hh, Bool.true_and,
            Bool.and_true, and_self]
          simp
        · simp [he1, hh] at h

theorem presentBlank_secGo (name : List Char) :
    ∀ ls, presentBlank name ls = true → secGo name false [] ls = [] := by
  intro ls
  induction ls with
  | nil => intro h; simp [presentBlank] at h
  | cons l t ih =>
    intro h
    by_cases hm : matchSecHeading (pyStrip l) name
    · simp only [presentBlank, hm, if_pos] at h
      simp only [secGo, hm, if_pos]
      exact secGo_blankUntil name t h
    · have hm' : matchSecHeading (pyStrip l) name = false := by simpa using hm
      simp only [presentBlank, hm', Bool.false_eq_true, if_false] at h
      simp only [secGo, hm', Bool.false_eq_true, if_false, Bool.false_and]
      exact ih h

/-- C10 (implicit): the section extractor returns the absence value `none`
both when the named heading never occurs in the document and when the
heading occurs but every line up to the next terminating heading or end of
document is blank, so callers cannot distinguish a missing section from an
empty one. -/
theorem claim_C10_empty_section_is_none (text name : List Char) :
    ((∀ l ∈ splitNl text, matchSecHeading (pyStrip l) name = false) →
      extract_section text name = none) ∧
    (presentBlank name (splitNl text) = true → extract_section text name = none) := by
  constructor
  · intro h
    unfold extract_section
    rw [secGo_noMatch name (splitNl text) [] h]
    rfl
  · intro h
    unfold extract_section
    rw [presentBlank_secGo name (splitNl text) h]
    rfl

theorem claim_C10_empty_section_is_none_witness :
    extract_section ("## Abstract\n\n# Next".toList) ("Abstract".toList) = none :=
  (claim_C10_empty_section_is_none ("## Abstract\n\n# Next".toList)
    ("Abstract".toList)).2 (by decide)

/-! ## C6: bold spans in the inline parser -/

theorem matchDelim_none_head (c : Char) (t : List Char)
    (h1 : c ≠ '*') (h2 : c ≠ '_') (h3 : c ≠ '~') : matchDelim (c :: t) = none := by
  have e1 : tryBoldStar (c :: t) = none := by
    cases t with
    | nil => rfl
    | cons b u => simp [tryBoldStar, h1]
  have e2 : tryBoldUnder (c :: t) = none := by
    cases t with
    | nil => rfl
    | cons b u => simp [tryBoldUnder, h2]
  have e3 : tryStrike (c :: t) = none := by
    cases t with
    | nil => rfl
    | cons b u => simp [tryStrike, h3]
  have e4 : tryItalUnder (c :: t) = none := by
    simp [tryItalUnder, h2]
  have e5 : tryItalStar (c :: t) = none := by
    simp [tryItalStar, h1]
  simp [matchDelim, e1, e2, e3, e4, e5]

theorem scanGo_step_none (n : Nat) (pending : List Char) (c : Char) (t : List Char)
    (h : matchDelim (c :: t) = none) :
    scanGo (n + 1) pending (c :: t) = scanGo n (c :: pending) t := by
  simp only [scanGo, h]

theorem scanGo_step_some (n : Nat) (pending s : List Char)
    (st : Style) (inner rest : List Char) (h : matchDelim s = some (st, inner, rest)) :
    scanGo (n + 1) pending s =
      (if pending.isEmpty then [] else [⟨pending.reverse, none⟩]) ++
        ⟨inner, some st⟩ :: scanGo n [] rest := by
  simp only [scanGo, h]

theorem scanGo_one_nil (pending : List Char) :
    scanGo 1 pending [] = if pending.isEmpty then [] else [⟨pending.reverse, none⟩] := by
  show scanGo (0 + 1) pending [] = _
  simp only [scanGo, matchDelim_nil]

/-- Scanning a delimiter-free prefix just moves it into the pending plain
text. -/
theorem scanGo_plain_run :
    ∀ A : List Char, (∀ c ∈ A, c ≠ '*' ∧ c ≠ '_' ∧ c ≠ '~') →
      ∀ n pending s0, A.length + s0.length < n →
        scanGo n pending (A ++ s0) = scanGo (s0.length + 1) (A.reverse ++ pending) s0 := by
  intro A
  induction A with
  | nil =>
    intro _ n pending s0 hn
    simp only [List.nil_append, List.reverse_nil]
    exact scanGo_congr s0.length s0 pending n (s0.length + 1) (le_refl _)
      (by simpa using hn) (by omega)
  | cons a A ih =>
    intro h n pending s0 hn
    have ha := h a (by simp)
    cases n with
    | zero => omega
    | succ n =>
      have hmd : matchDelim (a :: (A ++ s0)) = none :=
        matchDelim_none_head a (A ++ s0) ha.1 ha.2.1 ha.2.2
      rw [List.cons_append, scanGo_step_none n pending a (A ++ s0) hmd]
      rw [ih (fun c hc => h c (by simp [hc])) n (a :: pending) s0
        (by simp only [List.length_cons] at hn; omega)]
      simp

theorem close2Go_plain (C : List Char) :
    ∀ B acc, (∀ c ∈ B, c ≠ '*' ∧ c ≠ '\n') →
      close2Go '*' acc (B ++ ('*' :: '*' :: C)) = some (acc.reverse ++ B, C) := by
  intro B
  induction B with
  | nil =>
    intro acc _
    simp [close2Go, List.take]
  | cons b B ih =>
    intro acc h
    have hb := h b (by simp)
    simp only [List.cons_append, close2Go]
    rw [if_neg (fun hc => hb.1 hc.1)]
    rw [if_neg hb.2]
    have hrec := ih (b :: acc) (fun c hc => h c (by simp [hc]))
    simpa [List.append_eq] using hrec

theorem findClose2_plain (B C : List Char) (hB : ∀ c ∈ B, c ≠ '*' ∧ c ≠ '\n')
    (hBne : B ≠ []) :
    findClose2 '*' (B ++ ('*' :: '*' :: C)) = some (B, C) := by
  cases B with
  | nil => exact absurd rfl hBne
  | cons b B2 =>
    have hb := hB b (by simp)
    simp only [List.cons_append, findClose2]
    rw [if_neg hb.2]
    rw [close2Go_plain C B2 [b] (fun c hc => hB c (by simp [hc]))]
    simp

theorem matchDelim_bold (B C : List Char) (hB : ∀ c ∈ B, c ≠ '*' ∧ c ≠ '\n')
    (hBne : B ≠ []) :
    matchDelim ('*' :: '*' :: (B ++ ('*' :: '*' :: C))) = some (Style.bold, B, C) := by
  have h1 : tryBoldStar ('*' :: '*' :: (B ++ ('*' :: '*' :: C))) = some (Style.bold, B, C) := by
    simp only [tryBoldStar]
    rw [findClose2_plain B C hB hBne]
    simp
  simp [matchDelim, h1]

/-- C6 (counterexample): the line `"**a** **b**"` contains a balanced
`**...**` span with non-empty inner text, yet the inline parser emits TWO
bold-flagged runs, not exactly one: every balanced occurrence produces its
own bold run. -/
theorem claim_C6_counterexample :
    ("**a** **b**".toList =
      "**".toList ++ "a".toList ++ "**".toList ++ " **b**".toList) ∧
    ((parse_inline_markdown ("**a** **b**".toList)).filter
      (fun r => r.style == some Style.bold)).length = 2 := by
  constructor
  · decide
  · decide

/-- C6 (amended): for a line of the shape `A ++ "**" ++ B ++ "**" ++ C`
where `B` is non-empty and contains no `*` or newline, and `A` and `C`
contain no delimiter characters (`*`, `_`, `~`), the inline parser yields
exactly the run sequence: optional plain `A`, the bold run `B`, optional
plain `C` — e.g. `"a **b** c"` gives `[plain "a ", bold "b", plain " c"]`. -/
theorem claim_C6_single_bold (A B C : List Char)
    (hA : ∀ c ∈ A, c ≠ '*' ∧ c ≠ '_' ∧ c ≠ '~')
    (hB : ∀ c ∈ B, c ≠ '*' ∧ c ≠ '\n')
    (hC : ∀ c ∈ C, c ≠ '*' ∧ c ≠ '_' ∧ c ≠ '~')
    (hBne : B ≠ []) :
    parse_inline_markdown (A ++ ('*' :: '*' :: (B ++ ('*' :: '*' :: C)))) =
      (if A = [] then [] else [⟨A, none⟩]) ++
        ⟨B, some Style.bold⟩ :: (if C = [] then [] else [⟨C, none⟩]) := by
  have hmd := matchDelim_bold B C hB hBne
  have hC2 : scanGo (('*' :: '*' :: (B ++ ('*' :: '*' :: C))).length) [] C =
      scanGo 1 C.reverse [] := by
    have hlt : C.length + ([] : List Char).length <
        ('*' :: '*' :: (B ++ ('*' :: '*' :: C))).length := by
      simp only [List.length_nil, List.length_cons, List.length_append]
      omega
    have h2 := scanGo_plain_run C hC ('*' :: '*' :: (B ++ ('*' :: '*' :: C))).length [] [] hlt
    simpa using h2
  have hrt : scanGo ((A ++ ('*' :: '*' :: (B ++ ('*' :: '*' :: C)))).length + 1) []
      (A ++ ('*' :: '*' :: (B ++ ('*' :: '*' :: C)))) =
      (if A = [] then [] else [⟨A, none⟩]) ++
        ⟨B, some Style.bold⟩ :: (if C = [] then [] else [⟨C, none⟩]) := by
    rw [scanGo_plain_run A hA _ [] _ (by simp)]
    rw [List.append_nil]
    rw [scanGo_step_some ('*' :: '*' :: (B ++ ('*' :: '*' :: C))).length A.reverse
      ('*' :: '*' :: (B ++ ('*' :: '*' :: C))) Style.bold B C hmd]
    rw [hC2, scanGo_one_nil]
    by_cases hAe : A = []
    · by_cases hCe : C = [] <;> simp [hAe, hCe]
    · by_cases hCe : C = [] <;> simp [hAe, hCe]
  unfold parse_inline_markdown
  rw [hrt]
  by_cases hAe : A = []
  · simp [hAe]
  · simp [hAe]

/-! ## C3: words-level round trip of the chunker -/

theorem words_nil : words [] = [] := rfl

theorem words_ws_cons (c : Char) (hc : isPyWs c = true) (Q : List Char) :
    words (c :: Q) = words Q := by
  simp [words, wordsAux, hc]

/-- Inserting a whitespace character splits the word scan. -/
theorem wordsAux_append_ws (c : Char) (hc : isPyWs c = true) :
    ∀ (X Z : List Char) (cur : List Char),
      wordsAux cur (X ++ c :: Z) = wordsAux cur X ++ wordsAux [] Z := by
  intro X
  induction X with
  | nil =>
    intro Z cur
    by_cases hcur : cur = []
    · simp [wordsAux, hc, hcur]
    · simp [wordsAux, hc, hcur]
  | cons a X ih =>
    intro Z cur
    by_cases ha : isPyWs a
    · by_cases hcur : cur = []
      · simp only [List.cons_append, wordsAux, ha, hcur, if_pos]
        simpa using ih Z []
      · simp only [List.cons_append, wordsAux, ha, hcur, if_true, if_false]
        simp [hcur, ih Z []]
    · simp only [List.cons_append, wordsAux, ha]
      simp only [Bool.false_eq_true, if_false]
      exact ih Z (a :: cur)

theorem words_append_space (X Z : List Char) :
    words (X ++ ' ' :: Z) = words X ++ words Z :=
  wordsAux_append_ws ' ' (by decide) X Z []

/-- A trailing all-whitespace block does not change the word scan. -/
theorem wordsAux_allws :
    ∀ (T : List Char), T.all isPyWs = true →
      ∀ cur, wordsAux cur T = if cur = [] then [] else [cur.reverse] := by
  intro T
  induction T with
  | nil => intro _ cur; rfl
  | cons t T ih =>
    intro h cur
    simp only [List.all_cons, Bool.and_eq_true] at h
    by_cases hcur : cur = []
    · simp [wordsAux, h.1, hcur, ih h.2]
    · simp [wordsAux, h.1, hcur, ih h.2]

theorem wordsAux_append_allws (T : List Char) (hT : T.all isPyWs = true) :
    ∀ (Y : List Char) (cur : List Char), wordsAux cur (Y ++ T) = wordsAux cur Y := by
  intro Y
  induction Y with
  | nil =>
    intro cur
    simp only [List.nil_append]
    rw [wordsAux_allws T hT cur]
    rfl
  | cons a Y ih =>
    intro cur
    by_cases ha : isPyWs a
    · by_cases hcur : cur = []
      · simp only [List.cons_append, wordsAux, ha, hcur, if_pos]
        simp [ih]
      · simp only [List.cons_append, wordsAux, ha, hcur, if_true, if_false]
        simp [hcur, ih]
    · simp only [List.cons_append, wordsAux, ha]
      simp only [Bool.false_eq_true, if_false]
      exact ih (a :: cur)

theorem words_dropWhile_ws (X : List Char) :
    words (X.dropWhile isPyWs) = words X := by
  induction X with
  | nil => rfl
  | cons a X ih =>
    by_cases ha : isPyWs a
    · rw [List.dropWhile_cons_of_pos ha, ih, words_ws_cons a ha]
    · rw [List.dropWhile_cons_of_neg ha]

/-- Stripping preserves the word list. -/
theorem words_pyStrip (X : List Char) : words (pyStrip X) = words X := by
  obtain ⟨T, hT, hTws⟩ := pyStrip_decomp X
  have h1 : words (X.dropWhile isPyWs) = words X := words_dropWhile_ws X
  rw [hT] at h1
  rw [← h1]
  exact (wordsAux_append_allws T hTws (pyStrip X) []).symm

/-- The word list of the space-joined chunk list splits chunkwise. -/
theorem words_joinSpace_cons (x : List Char) (cs : List (List Char)) :
    words (joinSpace (x :: cs)) = words x ++ words (joinSpace cs) := by
  cases cs with
  | nil => simp [joinSpace, words_nil]
  | cons y cs => exact words_append_space x (joinSpace (y :: cs))

theorem takeWhile_append_all (p : Char → Bool) :
    ∀ (l z : List Char), (∀ c ∈ l, p c = true) →
      (l ++ z).takeWhile p = l ++ z.takeWhile p := by
  intro l
  induction l with
  | nil => intro z _; rfl
  | cons a l ih =>
    intro z h
    rw [List.cons_append, List.takeWhile_cons]
    simp only [h a (by simp), if_pos]
    rw [ih z (fun c hc => h c (by simp [hc]))]
    simp

/-- The word scan with a pending word in progress: the first emitted word is
the pending prefix extended by the next maximal non-whitespace run. -/
theorem wordsAux_word :
    ∀ (rest cur : List Char), cur ≠ [] →
      wordsAux cur rest =
        (cur.reverse ++ rest.takeWhile (fun c => !isPyWs c)) ::
          wordsAux [] (rest.dropWhile (fun c => !isPyWs c)) := by
  intro rest
  induction rest with
  | nil => intro cur hcur; simp [wordsAux, hcur]
  | cons a r ih =>
    intro cur hcur
    by_cases ha : isPyWs a
    · have hna : (!isPyWs a) = false := by simp [ha]
      simp only [wordsAux, ha, hcur, if_true, if_false, List.takeWhile_cons, hna,
        List.dropWhile_cons, Bool.false_eq_true]
      simp [hcur, wordsAux]
    · have hna : (!isPyWs a) = true := by simp [ha]
      simp only [wordsAux, ha, Bool.false_eq_true, if_false, List.takeWhile_cons,
        List.dropWhile_cons, hna, if_true]
      rw [ih (a :: cur) (by simp)]
      simp

/-- The first word of a string starting with a non-whitespace character. -/
theorem words_cons_nonws (c : Char) (rest : List Char) (hc : isPyWs c = false) :
    words (c :: rest) =
      (c :: rest.takeWhile (fun d => !isPyWs d)) ::
        words (rest.dropWhile (fun d => !isPyWs d)) := by
  show wordsAux [] (c :: rest) = _
  simp only [wordsAux, hc, Bool.false_eq_true, if_false]
  rw [wordsAux_word rest [c] (by simp)]
  rfl

theorem rfindSpace_none_not_mem :
    ∀ l : List Char, rfindSpace l = none → ' ' ∉ l := by
  intro l
  induction l with
  | nil => intro _; simp
  | cons c t ih =>
    intro h
    simp only [rfindSpace] at h
    cases ht : rfindSpace t with
    | some j => rw [ht] at h; simp at h
    | none =>
      rw [ht] at h
      by_cases hc : c = ' '
      · simp [hc] at h
      · simp only [List.mem_cons, not_or]
        exact ⟨fun he => hc he.symm, ih ht⟩

theorem rfindSpace_decomp :
    ∀ l : List Char, ∀ i, rfindSpace l = some i →
      ∃ P Q, l = P ++ ' ' :: Q ∧ P.length = i := by
  intro l
  induction l with
  | nil => intro i h; simp [rfindSpace] at h
  | cons c t ih =>
    intro i h
    simp only [rfindSpace] at h
    cases ht : rfindSpace t with
    | some j =>
      rw [ht] at h
      cases h
      obtain ⟨P, Q, hPQ, hlen⟩ := ih j ht
      exact ⟨c :: P, Q, by simp [hPQ], by simp [hlen]⟩
    | none =>
      rw [ht] at h
      by_cases hc : c = ' '
      · simp only [hc, if_pos] at h
        cases h
        exact ⟨[], t, by simp [hc], rfl⟩
      · simp [hc] at h

/-- Under the amended hypotheses the cut position of one chunker iteration
always lands on a space: the content splits as `P ++ ' ' :: Q` with the cut
taking exactly `P`. -/
theorem chunk_cut_at_space (S : List Char) (M : Nat) (hM : 1 ≤ M)
    (hlen : M < S.length)
    (hws : ∀ c ∈ S, isPyWs c = true → c = ' ')
    (hw : ∀ w ∈ words S, w.length ≤ M)
    (hhd : S.head? ≠ some ' ') :
    ∃ P Q, S = P ++ ' ' :: Q ∧ S.take (chunkEnd S M) = P ∧
      S.drop (chunkEnd S M) = ' ' :: Q := by
  obtain ⟨s0, rest, hS0⟩ : ∃ s0 rest, S = s0 :: rest := by
    cases S with
    | nil => simp at hlen
    | cons a t => exact ⟨a, t, rfl⟩
  have hs0 : isPyWs s0 = false := by
    by_contra hb
    simp only [Bool.not_eq_false] at hb
    have := hws s0 (by simp [hS0]) hb
    rw [hS0] at hhd
    simp [this] at hhd
  cases hr : rfindSpace (S.take M) with
  | some i =>
    obtain ⟨P, Q1, hPQ, hPlen⟩ := rfindSpace_decomp (S.take M) i hr
    by_cases hi : 0 < i
    · -- cut at the found space
      have hce : chunkEnd S M = i := by
        unfold chunkEnd
        rw [hr]
        simp [hi]
      have hSsplit : S = P ++ ' ' :: (Q1 ++ S.drop M) := by
        conv_lhs => rw [← List.take_append_drop M S]
        rw [hPQ]
        simp
      refine ⟨P, Q1 ++ S.drop M, hSsplit, ?_, ?_⟩
      · rw [hce]
        conv_lhs => rw [hSsplit]
        exact List.take_left' hPlen
      · rw [hce]
        conv_lhs => rw [hSsplit]
        exact List.drop_left' hPlen
    · -- a space at index 0 would contradict the non-space head
      exfalso
      have hP : P = [] := List.eq_nil_of_length_eq_zero (by omega)
      rw [hP, List.nil_append] at hPQ
      have : S.take M ≠ [] := by
        intro hnil
        rw [hnil] at hPQ
        simp at hPQ
      obtain ⟨m, hm⟩ : ∃ m, M = m + 1 := ⟨M - 1, by omega⟩
      rw [hS0, hm] at hPQ
      simp only [List.take_succ_cons] at hPQ
      have : s0 = ' ' := by
        have := congrArg List.head? hPQ
        simpa using this
      rw [this] at hs0
      simp [isPyWs] at hs0
  | none =>
    -- no space among the first M characters: the first word is exactly the
    -- first M characters, so the character after them is a space
    have hce : chunkEnd S M = M := by
      unfold chunkEnd
      rw [hr]
    have hnosp : ' ' ∉ S.take M := rfindSpace_none_not_mem (S.take M) hr
    have hnws : ∀ c ∈ S.take M, isPyWs c = false := by
      intro c hc
      by_contra hb
      simp only [Bool.not_eq_false] at hb
      have := hws c (List.mem_of_mem_take hc) hb
      rw [this] at hc
      exact hnosp hc
    obtain ⟨d, Q, hd⟩ : ∃ d Q, S.drop M = d :: Q := by
      cases hdrop : S.drop M with
      | nil =>
        have := congrArg List.length hdrop
        simp at this
        omega
      | cons d Q => exact ⟨d, Q, rfl⟩
    obtain ⟨m, hm⟩ : ∃ m, M = m + 1 := ⟨M - 1, by omega⟩
    have hrest_take : S.take M = s0 :: rest.take m := by
      rw [hS0, hm]
      simp [List.take_succ_cons]
    have hrest_drop : rest.drop m = d :: Q := by
      rw [hS0, hm] at hd
      simpa using hd
    have hdws : isPyWs d = true := by
      by_contra hb
      simp only [Bool.not_eq_false] at hb
      -- the first word would then be longer than M
      have hFW : words S =
          (s0 :: rest.takeWhile (fun c => !isPyWs c)) ::
            words (rest.dropWhile (fun c => !isPyWs c)) := by
        rw [hS0]
        exact words_cons_nonws s0 rest hs0
      have hmem : (s0 :: rest.takeWhile (fun c => !isPyWs c)) ∈ words S := by
        rw [hFW]
        simp
      have hbound := hw _ hmem
      -- compute a lower bound for the first word length
      have hPall : ∀ c ∈ rest.take m, (!isPyWs c) = true := by
        intro c hc
        have : c ∈ S.take M := by
          rw [hrest_take]
          simp [hc]
        simp [hnws c this]
      have hrest_split : rest = rest.take m ++ (d :: Q) := by
        conv_lhs => rw [← List.take_append_drop m rest]
        rw [hrest_drop]
      have htw : rest.takeWhile (fun c => !isPyWs c) =
          rest.take m ++ (d :: Q).takeWhile (fun c => !isPyWs c) := by
        conv_lhs => rw [hrest_split]
        exact takeWhile_append_all _ (rest.take m) (d :: Q) hPall
      have htwd : (d :: Q).takeWhile (fun c => !isPyWs c) =
          d :: Q.takeWhile (fun c => !isPyWs c) := by
        rw [List.takeWhile_cons]
        simp [hb]
      have hmlen : (rest.take m).length = m := by
        have : m ≤ rest.length := by
          have := congrArg List.length hS0
          simp at this
          omega
        exact List.length_take_of_le this
      have : (s0 :: rest.takeWhile (fun c => !isPyWs c)).length ≥ M + 1 := by
        rw [htw, htwd]
        simp [hmlen, hm]
      omega
    have hdsp : d = ' ' := by
      refine hws d ?_ hdws
      have : d ∈ S.drop M := by rw [hd]; simp
      exact List.mem_of_mem_drop this
    refine ⟨S.take M, Q, ?_, ?_, ?_⟩
    · conv_lhs => rw [← List.take_append_drop M S]
      rw [hd, hdsp]
    · rw [hce]
    · rw [hce, hd, hdsp]

/-- The chunker loop preserves the word list of its input and bounds every
chunk, under the amended hypotheses. -/
theorem chunkGo_words :
    ∀ L S M n, S.length ≤ L → S.length < n → 1 ≤ M →
      (∀ c ∈ S, isPyWs c = true → c = ' ') →
      (∀ w ∈ words S, w.length ≤ M) →
      S.head? ≠ some ' ' →
      words (joinSpace (chunkGo n S M)) = words S ∧
      ∀ ch ∈ chunkGo n S M, ch.length ≤ M := by
  intro L
  induction L with
  | zero =>
    intro S M n hL hn hM _ _ _
    have hS : S = [] := List.eq_nil_of_length_eq_zero (Nat.le_zero.mp hL)
    subst hS
    cases n with
    | zero => omega
    | succ n =>
      simp [chunkGo, joinSpace, words_nil]
  | succ L ih =>
    intro S M n hL hn hM hws hw hhd
    cases n with
    | zero => omega
    | succ n =>
      by_cases h0 : S.length = 0
      · have hS : S = [] := List.eq_nil_of_length_eq_zero h0
        subst hS
        simp [chunkGo, joinSpace, words_nil]
      · by_cases h1 : S.length ≤ M
        · simp only [chunkGo, h0, if_false, h1, if_pos]
          constructor
          · simp [joinSpace]
          · intro ch hch
            simp only [List.mem_singleton] at hch
            subst hch
            exact h1
        · have hlen : M < S.length := Nat.lt_of_not_le h1
          obtain ⟨P, Q, hS, htake, hdrop⟩ := chunk_cut_at_space S M hM hlen hws hw hhd
          have hstep : chunkGo (n + 1) S M =
              pyStrip P :: chunkGo n (pyStrip (' ' :: Q)) M := by
            simp only [chunkGo, h0, if_false, h1]
            rw [htake, hdrop]
          have hrem_lt : (pyStrip (' ' :: Q)).length < S.length := by
            have := chunk_step_len S M hM hlen
            rw [hdrop] at this
            exact this
          have hwords_split : words S = words P ++ words Q := by
            rw [hS]
            exact words_append_space P Q
          have hwords_rem : words (pyStrip (' ' :: Q)) = words Q := by
            rw [words_pyStrip]
            exact words_ws_cons ' ' (by decide) Q
          have hws' : ∀ c ∈ pyStrip (' ' :: Q), isPyWs c = true → c = ' ' := by
            intro c hc hcw
            refine hws c ?_ hcw
            rw [hS]
            have := mem_of_mem_pyStrip _ _ hc
            simp only [List.mem_append, List.mem_cons]
            simp only [List.mem_cons] at this
            tauto
          have hw' : ∀ w ∈ words (pyStrip (' ' :: Q)), w.length ≤ M := by
            intro w hwm
            rw [hwords_rem] at hwm
            refine hw w ?_
            rw [hwords_split]
            exact List.mem_append_right _ hwm
          have hhd' : (pyStrip (' ' :: Q)).head? ≠ some ' ' := by
            cases hrm : pyStrip (' ' :: Q) with
            | nil => simp
            | cons c t =>
              have := pyStrip_head _ c t hrm
              simp only [List.head?_cons]
              intro hcs
              cases hcs
              simp [isPyWs] at this
          obtain ⟨ihw, ihlen⟩ := ih (pyStrip (' ' :: Q)) M n (by omega) (by omega)
            hM hws' hw' hhd'
          rw [hstep]
          constructor
          · rw [words_joinSpace_cons, ihw, hwords_rem, words_pyStrip, ← hwords_split]
          · intro ch hch
            rcases List.mem_cons.mp hch with hch | hch
            · subst hch
              have hle := pyStrip_length_le P
              have : P.length ≤ M := by
                rw [← htake]
                calc (S.take (chunkEnd S M)).length
                    ≤ chunkEnd S M := List.length_take_le _ _
                  _ ≤ M := chunkEnd_le S M
              omega
            · exact ihlen ch hch

/-- C3 (counterexample): for `S = "aaaa"` and `M = 2` (a single word longer
than the maximum size), the chunker hard-splits the word, so joining its
output with single spaces does NOT reproduce the words of `S`. -/
theorem claim_C3_counterexample :
    words (joinSpace (chunk_content ("aaaa".toList) 2)) ≠ words ("aaaa".toList) := by
  decide

/-- C3 (amended): for every maximum size `M ≥ 1` and every string `S` whose
whitespace characters are all plain spaces, whose space-delimited words each
fit in `M` characters, and which does not start with a space, joining the
chunker's output with single spaces reproduces the words of `S` in order;
moreover every chunk (final included) is at most `M` characters long. -/
theorem claim_C3_chunk_round_trip (S : List Char) (M : Nat) (hM : 1 ≤ M)
    (hws : ∀ c ∈ S, isPyWs c = true → c = ' ')
    (hw : ∀ w ∈ words S, w.length ≤ M)
    (hhd : S.head? ≠ some ' ') :
    words (joinSpace (chunk_content S M)) = words S ∧
    ∀ ch ∈ chunk_content S M, ch.length ≤ M :=
  chunkGo_words S.length S M (S.length + 1) (le_refl _) (by omega) hM hws hw hhd

theorem claim_C3_chunk_round_trip_witness :
    words (joinSpace (chunk_content ("hello world".toList) 6)) =
      words ("hello world".toList) ∧
    ∀ ch ∈ chunk_content ("hello world".toList) 6, ch.length ≤ 6 :=
  claim_C3_chunk_round_trip ("hello world".toList) 6 (by decide) (by decide)
    (by decide) (by decide)

theorem claim_C6_single_bold_witness :
    parse_inline_markdown
        ("a ".toList ++ ('*' :: '*' :: ("b".toList ++ ('*' :: '*' :: " c".toList)))) =
      (if ("a ".toList : List Char) = [] then [] else [⟨"a ".toList, none⟩]) ++
        ⟨"b".toList, some Style.bold⟩ ::
          (if (" c".toList : List Char) = [] then [] else [⟨" c".toList, none⟩]) :=
  claim_C6_single_bold ("a ".toList) ("b".toList) (" c".toList)
    (by decide) (by decide) (by decide) (by decide)

end PdfSum
